import Mathlib

/-!
Verification of the s3fcp chunked downloader core.

The definitions below are a shallow embedding of the Rust sources:

* `src/chunk.rs` — `Chunk`, `DownloadedChunk`, `create_chunks`;
* `src/downloader.rs` — `ordered_output_writer`, `download_worker`'s
  per-chunk retried fetch, `download_chunked`, `download_single_stream`,
  `download`;
* `src/http_client.rs` — `HttpClient::head`;
* the concurrency structure of `download_chunked` (flume bounded
  channels, tokio tasks) as an explicit small-step transition system.

Machine integers are modelled by `Nat`; the expression
`start + chunk_size as u64 - 1` in `create_chunks` is the place where
u64 wrap/panic behaviour matters, and both of its failure modes are
modelled by explicit checks that return `none` (a panic in checked
builds): the addition `start + chunk_size` can overflow u64 (reachable
inside the `chunk_size ≥ 1` precondition, e.g. at
`content_length = 2^64 - 1`, `chunk_size = 2^63 + 1` on the second
iteration), and the subtraction `- 1` underflows when the sum is 0
(reachable only for `chunk_size = 0`).
-/

namespace S3fcp

/-- Byte payloads are sequences of bytes, modelled as lists of `Nat`. -/
abbrev Bytes := List Nat

/-- `Chunk` from `src/chunk.rs` (field `end` is renamed `end_` because
`end` is a Lean keyword). -/
structure Chunk where
  index : Nat
  start : Nat
  end_ : Nat
deriving DecidableEq, Repr

/-- `DownloadedChunk` from `src/chunk.rs`. -/
structure DownloadedChunk where
  index : Nat
  data : Bytes
deriving DecidableEq, Repr

/-- Loop body of `create_chunks` (src/chunk.rs, lines 17-30).

The Rust loop runs `while start < content_length`, computing
`end = (start + chunk_size as u64 - 1).min(content_length - 1)` in
`u64` arithmetic, evaluated as `((start + chunk_size) - 1)`.  The
addition overflows u64 when `start + chunk_size ≥ 2^64`; otherwise the
subtraction underflows when `start + chunk_size = 0`.  A checked
(debug) build panics in either case, which we model as `none` in the
same evaluation order.  The `fuel` argument bounds the number of loop
iterations; `create_chunks` supplies `content_length + 1`, which is
shown sufficient whenever the loop terminates (`chunk_size ≥ 1`). -/
def create_chunksGo (content_length chunk_size : Nat) :
    Nat → Nat → Nat → Option (List Chunk)
  | 0, _, _ => none
  | fuel + 1, start, index =>
    if start < content_length then
      if 2 ^ 64 ≤ start + chunk_size then none
      else if start + chunk_size = 0 then none
      else
        let e := min (start + chunk_size - 1) (content_length - 1)
        match create_chunksGo content_length chunk_size fuel (e + 1) (index + 1) with
        | none => none
        | some rest => some (⟨index, start, e⟩ :: rest)
    else some []

/-- `create_chunks` from `src/chunk.rs`: `none` models the u64
overflow/underflow panic of a checked build inside
`start + chunk_size as u64 - 1` (overflow is reachable with
`chunk_size ≥ 1` at large inputs; underflow only for
`chunk_size = 0` and `content_length > 0`). -/
def create_chunks (content_length chunk_size : Nat) : Option (List Chunk) :=
  create_chunksGo content_length chunk_size (content_length + 1) 0 0

/-- The produced ranges chain contiguously from byte `s` up to
`content_length`: each chunk starts where the previous one ended plus
one, is non-empty, stays below `content_length`, and the final chunk
ends at `content_length - 1`. -/
def chainFrom (content_length : Nat) : Nat → List Chunk → Prop
  | s, [] => s = content_length
  | s, c :: rest =>
      c.start = s ∧ s ≤ c.end_ ∧ c.end_ < content_length ∧
        chainFrom content_length (c.end_ + 1) rest

theorem create_chunksGo_spec (content_length chunk_size : Nat)
    (hcs : 1 ≤ chunk_size)
    (hov : content_length + chunk_size ≤ 2 ^ 64) :
    ∀ fuel start index, content_length - start < fuel → start ≤ content_length →
      ∃ l, create_chunksGo content_length chunk_size fuel start index = some l ∧
        chainFrom content_length start l ∧
        l.map Chunk.index = List.range' index l.length := by
  intro fuel
  induction fuel with
  | zero => intro start index hf _; omega
  | succ n ih =>
    intro start index hf hle
    by_cases hlt : start < content_length
    · have hne0 : ¬ (2 ^ 64 ≤ start + chunk_size) := by omega
      have hne : ¬ (start + chunk_size = 0) := by omega
      have he1 : start ≤ min (start + chunk_size - 1) (content_length - 1) := by
        omega
      have he2 : min (start + chunk_size - 1) (content_length - 1) <
          content_length := by omega
      obtain ⟨l, hl, hchain, hidx⟩ :=
        ih (min (start + chunk_size - 1) (content_length - 1) + 1) (index + 1)
          (by omega) (by omega)
      refine ⟨⟨index, start, min (start + chunk_size - 1) (content_length - 1)⟩
          :: l, ?_, ?_, ?_⟩
      · simp only [create_chunksGo, if_pos hlt, if_neg hne0, if_neg hne, hl]
      · exact ⟨rfl, he1, he2, hchain⟩
      · simp only [List.map_cons, hidx, List.length_cons]
        rw [List.range'_succ]
    · have hst : start = content_length := by omega
      refine ⟨[], ?_, ?_, ?_⟩
      · simp only [create_chunksGo, if_neg hlt]
      · simpa [chainFrom] using hst
      · simp

/-- A chain is empty exactly when it starts at `content_length`. -/
theorem chainFrom_nil_iff (content_length s : Nat) (l : List Chunk)
    (h : chainFrom content_length s l) (hs : s = content_length) :
    content_length ≤ s → ∀ c ∈ l, False := by
  intro _ c hc
  cases l with
  | nil => simp at hc
  | cons a rest =>
    obtain ⟨_, h2, h3, _⟩ := h
    omega

/-- Every chunk of a chain has a non-empty range inside the object. -/
theorem chainFrom_bounds (content_length : Nat) :
    ∀ (l : List Chunk) (s : Nat), chainFrom content_length s l →
      ∀ c ∈ l, s ≤ c.start ∧ c.start ≤ c.end_ ∧ c.end_ < content_length := by
  intro l
  induction l with
  | nil => intro s _ c hc; simp at hc
  | cons a rest ih =>
    intro s hch c hc
    obtain ⟨h1, h2, h3, h4⟩ := hch
    rcases List.mem_cons.mp hc with hc | hc
    · subst hc; exact ⟨le_of_eq h1.symm, by omega, h3⟩
    · obtain ⟨hs, hse, hlt⟩ := ih (a.end_ + 1) h4 c hc
      exact ⟨by omega, hse, hlt⟩

/-- Consecutive chunks of a chain are contiguous. -/
theorem chainFrom_contiguous (content_length : Nat) :
    ∀ (l : List Chunk) (s : Nat), chainFrom content_length s l →
      ∀ i (hi : i + 1 < l.length),
        (l.get ⟨i, by omega⟩).end_ + 1 = (l.get ⟨i + 1, hi⟩).start := by
  intro l
  induction l with
  | nil => intro s _ i hi; simp at hi
  | cons a rest ih =>
    intro s hch i hi
    obtain ⟨h1, h2, h3, h4⟩ := hch
    cases i with
    | zero =>
      cases rest with
      | nil => simp at hi
      | cons b tail =>
        obtain ⟨hb, _, _, _⟩ := h4
        simpa [List.get] using hb.symm
    | succ j =>
      have hj : j + 1 < rest.length := by
        simpa [List.length_cons] using hi
      simpa [List.get] using ih (a.end_ + 1) h4 j hj

/-- The last chunk of a non-empty chain ends at `content_length - 1`. -/
theorem chainFrom_last (content_length : Nat) :
    ∀ (l : List Chunk) (s : Nat), chainFrom content_length s l →
      ∀ hne : l ≠ [], (l.getLast hne).end_ = content_length - 1 := by
  intro l
  induction l with
  | nil => intro s _ hne; exact absurd rfl hne
  | cons a rest ih =>
    intro s hch hne
    obtain ⟨h1, h2, h3, h4⟩ := hch
    cases rest with
    | nil =>
      simp only [List.getLast]
      simp only [chainFrom] at h4
      omega
    | cons b tail =>
      rw [List.getLast_cons (by simp)]
      exact ih (a.end_ + 1) h4 (by simp)

/-- The ranges of a chain cover exactly the interval from its start to
`content_length`. -/
theorem chainFrom_cover (content_length : Nat) :
    ∀ (l : List Chunk) (s : Nat), chainFrom content_length s l →
      ∀ b, (∃ c ∈ l, c.start ≤ b ∧ b ≤ c.end_) ↔ (s ≤ b ∧ b < content_length) := by
  intro l
  induction l with
  | nil =>
    intro s hch b
    simp only [chainFrom] at hch
    subst hch
    simp only [List.not_mem_nil, false_and, exists_false, false_iff]
    omega
  | cons a rest ih =>
    intro s hch b
    obtain ⟨h1, h2, h3, h4⟩ := hch
    constructor
    · rintro ⟨c, hc, hcb1, hcb2⟩
      rcases List.mem_cons.mp hc with hc | hc
      · subst hc; omega
      · obtain ⟨hs, _, hlt⟩ := chainFrom_bounds content_length rest (a.end_ + 1) h4 c hc
        constructor
        · omega
        · omega
    · rintro ⟨hb1, hb2⟩
      by_cases hba : b ≤ a.end_
      · exact ⟨a, List.mem_cons_self _ _, by omega, hba⟩
      · obtain ⟨c, hc, hcb⟩ := (ih (a.end_ + 1) h4 b).mpr ⟨by omega, hb2⟩
        exact ⟨c, List.mem_cons_of_mem _ hc, hcb⟩

/-- Chunks later in a chain start strictly after earlier chunks end. -/
theorem chainFrom_ordered (content_length : Nat) :
    ∀ (l : List Chunk) (s : Nat), chainFrom content_length s l →
      ∀ i j (hi : i < l.length) (hj : j < l.length), i < j →
        (l.get ⟨i, hi⟩).end_ < (l.get ⟨j, hj⟩).start := by
  intro l
  induction l with
  | nil => intro s _ i j hi; simp at hi
  | cons a rest ih =>
    intro s hch i j hi hj hij
    obtain ⟨h1, h2, h3, h4⟩ := hch
    cases i with
    | zero =>
      cases j with
      | zero => omega
      | succ k =>
        have hk : k < rest.length := by simpa [List.length_cons] using hj
        have hmem := chainFrom_bounds content_length rest (a.end_ + 1) h4
          (rest.get ⟨k, hk⟩) (List.get_mem rest k hk)
        have hg : (a :: rest).get ⟨k + 1, hj⟩ = rest.get ⟨k, hk⟩ := rfl
        have hg0 : (a :: rest).get ⟨0, hi⟩ = a := rfl
        rw [hg, hg0]
        omega
    | succ i' =>
      cases j with
      | zero => omega
      | succ j' =>
        have hi' : i' < rest.length := by simpa [List.length_cons] using hi
        have hj' : j' < rest.length := by simpa [List.length_cons] using hj
        simpa [List.get] using ih (a.end_ + 1) h4 i' j' hi' hj' (by omega)

/-- Counterexample to claim C1 as stated: the claim quantifies over
every `content_length ≥ 0` and `chunk_size ≥ 1`, but at
`content_length = 2^64 - 1`, `chunk_size = 2^63 + 1` — both
representable u64/usize values satisfying the precondition — the
second loop iteration has `start = 2^63 + 1`, so the u64 addition
`start + chunk_size = 2^64 + 2` overflows: a checked build panics and
no partition is returned (modelled as `none`), while the first
iteration's chunk `[0, 2^63]` shows the loop is genuinely entered. -/
theorem create_chunks_overflow_counterexample :
    1 ≤ 2 ^ 63 + 1 ∧
    create_chunks (2 ^ 64 - 1) (2 ^ 63 + 1) = none := by
  constructor
  · decide
  · decide

/-- Claim C1 amended: for every `content_length ≥ 0` and
`chunk_size ≥ 1` such that the u64 addition `start + chunk_size`
cannot overflow (guaranteed by
`content_length + chunk_size ≤ 2^64`, which holds for all practical
inputs), `create_chunks` succeeds and returns chunks whose indices are
`0, 1, …` in order, whose first chunk starts at byte 0, whose
consecutive chunks satisfy `chunk[i].end + 1 = chunk[i+1].start`,
whose last chunk ends at `content_length - 1`, whose ranges are
pairwise non-overlapping with union exactly `[0, content_length)`,
and which are empty when `content_length = 0`. -/
theorem create_chunks_partition_no_overflow (content_length chunk_size : Nat)
    (hcs : 1 ≤ chunk_size)
    (hov : content_length + chunk_size ≤ 2 ^ 64) :
    ∃ l, create_chunks content_length chunk_size = some l ∧
      (∀ i (hi : i < l.length), (l.get ⟨i, hi⟩).index = i) ∧
      (∀ hne : l ≠ [], (l.head hne).start = 0) ∧
      (∀ i (hi : i + 1 < l.length),
        (l.get ⟨i, by omega⟩).end_ + 1 = (l.get ⟨i + 1, hi⟩).start) ∧
      (∀ hne : l ≠ [], (l.getLast hne).end_ = content_length - 1) ∧
      (∀ i j (hi : i < l.length) (hj : j < l.length), i < j →
        (l.get ⟨i, hi⟩).end_ < (l.get ⟨j, hj⟩).start) ∧
      (∀ b, (∃ c ∈ l, c.start ≤ b ∧ b ≤ c.end_) ↔ b < content_length) ∧
      (content_length = 0 → l = []) := by
  obtain ⟨l, hl, hchain, hidx⟩ :=
    create_chunksGo_spec content_length chunk_size hcs hov
      (content_length + 1) 0 0 (by omega) (by omega)
  refine ⟨l, hl, ?_, ?_, ?_, ?_, ?_, ?_, ?_⟩
  · intro i hi
    have h3 : (List.map Chunk.index l)[i]? = (List.range' 0 l.length)[i]? := by
      rw [hidx]
    have hrl : i < (List.range' 0 l.length).length := by simpa using hi
    rw [List.getElem?_map, List.getElem?_eq_getElem hi,
      List.getElem?_eq_getElem hrl] at h3
    have h4 := Option.some.inj h3
    simpa using h4
  · intro hne
    cases l with
    | nil => exact absurd rfl hne
    | cons a rest => exact hchain.1
  · intro i hi
    exact chainFrom_contiguous content_length l 0 hchain i hi
  · intro hne
    exact chainFrom_last content_length l 0 hchain hne
  · intro i j hi hj hij
    exact chainFrom_ordered content_length l 0 hchain i j hi hj hij
  · intro b
    simpa using chainFrom_cover content_length l 0 hchain b
  · intro h0
    subst h0
    cases l with
    | nil => rfl
    | cons a rest =>
      obtain ⟨_, _, h3, _⟩ := hchain
      omega

/-- Witness for the amended C1 at the spec's remainder scenario
(`content_length = 10`, `chunk_size = 7`). -/
theorem create_chunks_partition_no_overflow_witness :
    ∃ l, create_chunks 10 7 = some l ∧
      (∀ i (hi : i < l.length), (l.get ⟨i, hi⟩).index = i) ∧
      (∀ hne : l ≠ [], (l.head hne).start = 0) ∧
      (∀ i (hi : i + 1 < l.length),
        (l.get ⟨i, by omega⟩).end_ + 1 = (l.get ⟨i + 1, hi⟩).start) ∧
      (∀ hne : l ≠ [], (l.getLast hne).end_ = 10 - 1) ∧
      (∀ i j (hi : i < l.length) (hj : j < l.length), i < j →
        (l.get ⟨i, hi⟩).end_ < (l.get ⟨j, hj⟩).start) ∧
      (∀ b, (∃ c ∈ l, c.start ≤ b ∧ b ≤ c.end_) ↔ b < 10) ∧
      ((10 : Nat) = 0 → l = []) :=
  create_chunks_partition_no_overflow 10 7 (by decide) (by decide)

/-- Claim C10: `chunk_size ≥ 1` is necessary — for `chunk_size = 0` and
any `content_length > 0`, the first loop iteration of `create_chunks`
underflows the u64 subtraction `start + chunk_size - 1` (a panic in
checked builds), so the function does not produce a chunk list. -/
theorem create_chunks_zero_size_underflow (content_length : Nat)
    (h : 0 < content_length) :
    create_chunks content_length 0 = none := by
  unfold create_chunks
  obtain ⟨n, rfl⟩ : ∃ n, content_length = n + 1 := ⟨content_length - 1, by omega⟩
  simp [create_chunksGo]

/-- Witness for C10 at `content_length = 1`. -/
theorem create_chunks_zero_size_underflow_witness :
    create_chunks 1 0 = none :=
  create_chunks_zero_size_underflow 1 (by decide)

/-! ## Stage 3: the ordered output writer (src/downloader.rs, lines 63-94)

The Rust function keeps a `BTreeMap<usize, DownloadedChunk>` plus a
`next_expected` cursor; it receives chunks from a channel, inserts them
by index, drains the contiguous run starting at `next_expected`, and
returns early (before the channel closes) once `next_expected` reaches
`total_chunks`.  The channel is modelled by the list of chunks received
in arrival order; the map by an association list. -/

/-- Association-list buffer standing for the `BTreeMap`. -/
abbrev Buf := List (Nat × Bytes)

/-- `BTreeMap::insert`: replace the value of an existing key, or add
the binding. -/
def bufInsert (k : Nat) (v : Bytes) : Buf → Buf
  | [] => [(k, v)]
  | (k2, v2) :: rest =>
      if k = k2 then (k, v) :: rest else (k2, v2) :: bufInsert k v rest

/-- `BTreeMap` lookup (used through `remove`). -/
def bufFind (k : Nat) : Buf → Option Bytes
  | [] => none
  | (k2, v2) :: rest => if k = k2 then some v2 else bufFind k rest

/-- Key deletion half of `BTreeMap::remove`. -/
def bufErase (k : Nat) : Buf → Buf
  | [] => []
  | (k2, v2) :: rest =>
      if k = k2 then rest else (k2, v2) :: bufErase k rest

/-- Result of the inner drain loop of the writer: either the early
`return Ok(writer)` taken when `next_expected` reached `total_chunks`,
or control going back to the outer receive loop. -/
inductive OOWRes where
  | earlyDone (out : Bytes)
  | more (buffer : Buf) (next : Nat) (out : Bytes)
deriving DecidableEq, Repr

/-- Inner loop of `ordered_output_writer`:
`while let Some(chunk) = buffer.remove(&next_expected) { ... }`.
Each iteration writes the chunk's bytes, advances `next_expected`, and
returns early when it reaches `total`.  `fuel` bounds the iterations;
callers pass `buffer.length + 1`, which is always sufficient because
every iteration removes a key. -/
def drainBuf (total : Nat) : Nat → Buf → Nat → Bytes → OOWRes
  | 0, buffer, next, out => .more buffer next out
  | fuel + 1, buffer, next, out =>
    match bufFind next buffer with
    | none => .more buffer next out
    | some d =>
      if next + 1 = total then .earlyDone (out ++ d)
      else drainBuf total fuel (bufErase next buffer) (next + 1) (out ++ d)

/-- Outer receive loop of `ordered_output_writer` over the arrival
list.  Returns the byte stream written to the sink, plus `true` when
the writer took the early return (all `total` chunks written) and
`false` when it terminated because the queue closed. -/
def oowGo (total : Nat) : List DownloadedChunk → Buf → Nat → Bytes → Bytes × Bool
  | [], _, _, out => (out, false)
  | c :: rest, buffer, next, out =>
    match drainBuf total ((bufInsert c.index c.data buffer).length + 1)
        (bufInsert c.index c.data buffer) next out with
    | .earlyDone o => (o, true)
    | .more b2 n2 o2 => oowGo total rest b2 n2 o2

/-- `ordered_output_writer` from `src/downloader.rs`: consume the
arrival sequence with an empty buffer, cursor 0 and nothing written.
Both termination paths of the Rust function return `Ok(writer)`; the
Bool records which path was taken. -/
def ordered_output_writer (total : Nat) (arrivals : List DownloadedChunk) :
    Bytes × Bool :=
  oowGo total arrivals [] 0 []

/-- Concatenation of the first `n` chunk payloads in index order. -/
def catRange (data : Nat → Bytes) : Nat → Bytes
  | 0 => []
  | n + 1 => catRange data n ++ data n

/-- The well-formed arrival item for index `i`. -/
def mkChunk (data : Nat → Bytes) (i : Nat) : DownloadedChunk :=
  ⟨i, data i⟩

theorem bufFind_eq_none (k : Nat) (b : Buf) :
    bufFind k b = none ↔ k ∉ b.map Prod.fst := by
  induction b with
  | nil => simp [bufFind]
  | cons p rest ih =>
    obtain ⟨k2, v2⟩ := p
    by_cases h : k = k2
    · subst h; simp [bufFind]
    · simp [bufFind, h, ih]

theorem bufFind_insert (k i : Nat) (v : Bytes) (b : Buf) :
    bufFind k (bufInsert i v b) = if k = i then some v else bufFind k b := by
  induction b with
  | nil =>
    simp only [bufInsert]
    by_cases h : k = i <;> simp [bufFind, h]
  | cons p rest ih =>
    obtain ⟨k2, v2⟩ := p
    simp only [bufInsert]
    by_cases h2 : i = k2
    · subst h2
      by_cases h : k = i <;> simp [bufFind, h]
    · simp only [if_neg h2, bufFind]
      by_cases h : k = k2
      · have hki : ¬ k = i := by omega
        have hki2 : ¬ k2 = i := by omega
        simp [h, hki, hki2]
      · simp [h, ih]

theorem bufInsert_keys (i : Nat) (v : Bytes) (b : Buf) (k : Nat)
    (h : k ∈ (bufInsert i v b).map Prod.fst) :
    k = i ∨ k ∈ b.map Prod.fst := by
  induction b with
  | nil =>
    simp only [bufInsert, List.map_cons, List.map_nil, List.mem_singleton] at h
    exact Or.inl h
  | cons p rest ih =>
    obtain ⟨k2, v2⟩ := p
    by_cases h2 : i = k2
    · simp only [bufInsert, if_pos h2, List.map_cons, List.mem_cons] at h
      rcases h with hx | hx
      · exact Or.inl hx
      · right
        simp only [List.map_cons, List.mem_cons]
        exact Or.inr hx
    · simp only [bufInsert, if_neg h2, List.map_cons, List.mem_cons] at h
      rcases h with hx | hx
      · right
        simp only [List.map_cons, List.mem_cons]
        exact Or.inl hx
      · rcases ih hx with h3 | h3
        · exact Or.inl h3
        · right
          simp only [List.map_cons, List.mem_cons]
          exact Or.inr h3

theorem bufErase_keys (j : Nat) (b : Buf) (k : Nat)
    (h : k ∈ (bufErase j b).map Prod.fst) : k ∈ b.map Prod.fst := by
  induction b with
  | nil => simp [bufErase] at h
  | cons p rest ih =>
    obtain ⟨k2, v2⟩ := p
    by_cases h2 : j = k2
    · subst h2
      simp only [bufErase, if_pos rfl] at h
      simp only [List.map_cons, List.mem_cons]
      exact Or.inr h
    · simp only [bufErase, if_neg h2, List.map_cons, List.mem_cons] at h
      simp only [List.map_cons, List.mem_cons]
      rcases h with h | h
      · exact Or.inl h
      · exact Or.inr (ih h)

theorem bufInsert_keys_nodup (i : Nat) (v : Bytes) (b : Buf)
    (hnd : (b.map Prod.fst).Nodup) :
    ((bufInsert i v b).map Prod.fst).Nodup := by
  induction b with
  | nil => simp [bufInsert]
  | cons p rest ih =>
    obtain ⟨k2, v2⟩ := p
    simp only [List.map_cons, List.nodup_cons] at hnd
    by_cases h2 : i = k2
    · simp only [bufInsert, if_pos h2, List.map_cons, List.nodup_cons]
      refine ⟨?_, hnd.2⟩
      rw [h2]
      exact hnd.1
    · simp only [bufInsert, if_neg h2, List.map_cons, List.nodup_cons]
      refine ⟨?_, ih hnd.2⟩
      intro hmem
      rcases bufInsert_keys i v rest k2 hmem with h3 | h3
      · exact h2 h3.symm
      · exact hnd.1 h3

theorem bufErase_keys_nodup (j : Nat) (b : Buf)
    (hnd : (b.map Prod.fst).Nodup) :
    ((bufErase j b).map Prod.fst).Nodup := by
  induction b with
  | nil => simp [bufErase]
  | cons p rest ih =>
    obtain ⟨k2, v2⟩ := p
    simp only [List.map_cons, List.nodup_cons] at hnd
    by_cases h2 : j = k2
    · subst h2
      simpa [bufErase] using hnd.2
    · simp only [bufErase, if_neg h2, List.map_cons, List.nodup_cons]
      exact ⟨fun hmem => hnd.1 (bufErase_keys j rest k2 hmem), ih hnd.2⟩

theorem bufFind_erase (k j : Nat) (b : Buf)
    (hnd : (b.map Prod.fst).Nodup) :
    bufFind k (bufErase j b) = if k = j then none else bufFind k b := by
  induction b with
  | nil => by_cases h : k = j <;> simp [bufErase, bufFind, h]
  | cons p rest ih =>
    obtain ⟨k2, v2⟩ := p
    simp only [List.map_cons, List.nodup_cons] at hnd
    simp only [bufErase]
    by_cases h2 : j = k2
    · subst h2
      simp only [if_pos rfl]
      by_cases h : k = j
      · subst h
        simp only [if_pos rfl]
        exact (bufFind_eq_none k rest).mpr hnd.1
      · simp [bufFind, h]
    · simp only [if_neg h2, bufFind]
      by_cases h : k = k2
      · have hkj : ¬ k = j := by omega
        have hkj2 : ¬ k2 = j := by omega
        simp [h, hkj, hkj2]
      · simp [h, ih hnd.2]

theorem bufErase_length (j : Nat) (b : Buf) (v : Bytes)
    (h : bufFind j b = some v) :
    (bufErase j b).length + 1 = b.length := by
  induction b with
  | nil => simp [bufFind] at h
  | cons p rest ih =>
    obtain ⟨k2, v2⟩ := p
    by_cases hj : j = k2
    · simp [bufErase, hj]
    · simp only [bufFind, if_neg hj] at h
      simp [bufErase, hj, ih h]

theorem bufFind_mem (k : Nat) (v : Bytes) (b : Buf)
    (h : bufFind k b = some v) : (k, v) ∈ b := by
  induction b with
  | nil => simp [bufFind] at h
  | cons p rest ih =>
    obtain ⟨k2, v2⟩ := p
    by_cases hk : k = k2
    · simp only [bufFind, if_pos hk] at h
      obtain rfl := Option.some.inj h
      rw [hk]
      exact List.mem_cons_self _ _
    · simp only [bufFind, if_neg hk] at h
      exact List.mem_cons_of_mem _ (ih h)

theorem bufInsert_entry (i k : Nat) (v w : Bytes) (b : Buf)
    (h : (k, w) ∈ bufInsert i v b) : (k, w) ∈ b ∨ (k = i ∧ w = v) := by
  induction b with
  | nil =>
    simp only [bufInsert, List.mem_singleton, Prod.mk.injEq] at h
    exact Or.inr h
  | cons p rest ih =>
    obtain ⟨k2, v2⟩ := p
    by_cases h2 : i = k2
    · simp only [bufInsert, if_pos h2, List.mem_cons, Prod.mk.injEq] at h
      rcases h with h | h
      · exact Or.inr h
      · exact Or.inl (List.mem_cons_of_mem _ h)
    · simp only [bufInsert, if_neg h2, List.mem_cons] at h
      rcases h with h | h
      · exact Or.inl (h ▸ List.mem_cons_self _ _)
      · rcases ih h with h3 | h3
        · exact Or.inl (List.mem_cons_of_mem _ h3)
        · exact Or.inr h3

theorem bufErase_entry (j k : Nat) (w : Bytes) (b : Buf)
    (h : (k, w) ∈ bufErase j b) : (k, w) ∈ b := by
  induction b with
  | nil => simp [bufErase] at h
  | cons p rest ih =>
    obtain ⟨k2, v2⟩ := p
    by_cases h2 : j = k2
    · subst h2
      simp only [bufErase, if_pos rfl] at h
      exact List.mem_cons_of_mem _ h
    · simp only [bufErase, if_neg h2, List.mem_cons] at h
      rcases h with h | h
      · exact h ▸ List.mem_cons_self _ _
      · exact List.mem_cons_of_mem _ (ih h)

/-- Every non-empty list of naturals has a least element. -/
theorem exists_list_min (l : List Nat) (h : l ≠ []) :
    ∃ j ∈ l, ∀ k ∈ l, j ≤ k := by
  induction l with
  | nil => exact absurd rfl h
  | cons a rest ih =>
    cases rest with
    | nil =>
      refine ⟨a, List.mem_cons_self _ _, ?_⟩
      intro k hk
      simp only [List.mem_singleton] at hk
      omega
    | cons b tail =>
      obtain ⟨j, hj1, hj2⟩ := ih (by simp)
      by_cases haj : a ≤ j
      · refine ⟨a, List.mem_cons_self _ _, ?_⟩
        intro k hk
        rcases List.mem_cons.mp hk with rfl | hk
        · omega
        · exact le_trans haj (hj2 k hk)
      · refine ⟨j, List.mem_cons_of_mem _ hj1, ?_⟩
        intro k hk
        rcases List.mem_cons.mp hk with rfl | hk
        · omega
        · exact hj2 k hk

/-- Exact description of the drain loop on a buffer whose entries are
the correct payloads of indices in `[n, total)`.  If every index of
`[n, total)` is buffered, the loop takes the early return with the
complete output; otherwise it stops at the first gap `j`, having
written everything up to `j` and having removed exactly the keys of
`[n, j)`. -/
theorem drainBuf_spec (total : Nat) (data : Nat → Bytes) :
    ∀ (fuel : Nat) (b : Buf) (n : Nat),
      b.length < fuel →
      (b.map Prod.fst).Nodup →
      (∀ k v, bufFind k b = some v → v = data k ∧ n ≤ k ∧ k < total) →
      n < total →
      ((∀ k, n ≤ k → k < total → (bufFind k b).isSome) →
        drainBuf total fuel b n (catRange data n) =
          .earlyDone (catRange data total)) ∧
      (∀ j, n ≤ j → j < total → bufFind j b = none →
        (∀ k, n ≤ k → k < j → (bufFind k b).isSome) →
        ∃ b2, drainBuf total fuel b n (catRange data n) =
            .more b2 j (catRange data j) ∧
          (b2.map Prod.fst).Nodup ∧
          (∀ k, bufFind k b2 =
            if n ≤ k ∧ k < j then none else bufFind k b)) := by
  intro fuel
  induction fuel with
  | zero => intro b n hlen; omega
  | succ m ih =>
    intro b n hlen hnd hW hn
    cases hf : bufFind n b with
    | none =>
      constructor
      · intro hall
        have := hall n (Nat.le_refl n) hn
        rw [hf] at this
        simp at this
      · intro j hj1 hj2 hjn hpre
        have hjeq : j = n := by
          by_contra hne
          have := hpre n (Nat.le_refl n) (by omega)
          rw [hf] at this
          simp at this
        subst hjeq
        refine ⟨b, ?_, hnd, ?_⟩
        · simp only [drainBuf, hf]
        · intro k
          rw [if_neg (by omega)]
    | some d =>
      have hd := hW n d hf
      obtain ⟨hdv, _, _⟩ := hd
      subst hdv
      by_cases hnt : n + 1 = total
      · constructor
        · intro _
          simp only [drainBuf, hf, if_pos hnt]
          have hcat : catRange data total = catRange data n ++ data n := by
            rw [← hnt]
            rfl
          rw [hcat]
        · intro j hj1 hj2 hjn _
          have : j = n := by omega
          subst this
          rw [hf] at hjn
          simp at hjn
      · have hlen2 : (bufErase n b).length < m := by
          have := bufErase_length n b (data n) hf
          omega
        have hnd2 := bufErase_keys_nodup n b hnd
        have hW2 : ∀ k v, bufFind k (bufErase n b) = some v →
            v = data k ∧ n + 1 ≤ k ∧ k < total := by
          intro k v hkv
          rw [bufFind_erase k n b hnd] at hkv
          by_cases hk : k = n
          · rw [if_pos hk] at hkv; simp at hkv
          · rw [if_neg hk] at hkv
            obtain ⟨h1, h2, h3⟩ := hW k v hkv
            exact ⟨h1, by omega, h3⟩
        have hn2 : n + 1 < total := by omega
        obtain ⟨ihA, ihB⟩ := ih (bufErase n b) (n + 1) hlen2 hnd2 hW2 hn2
        have hstep : drainBuf total (m + 1) b n (catRange data n) =
            drainBuf total m (bufErase n b) (n + 1)
              (catRange data n ++ data n) := by
          simp only [drainBuf, hf, if_neg hnt]
        have hcat1 : catRange data (n + 1) = catRange data n ++ data n := rfl
        constructor
        · intro hall
          rw [hstep, ← hcat1]
          apply ihA
          intro k hk1 hk2
          rw [bufFind_erase k n b hnd, if_neg (by omega)]
          exact hall k (by omega) hk2
        · intro j hj1 hj2 hjn hpre
          have hjne : j ≠ n := by
            intro he
            rw [he, hf] at hjn
            simp at hjn
          have hj1' : n + 1 ≤ j := by omega
          have hjn' : bufFind j (bufErase n b) = none := by
            rw [bufFind_erase j n b hnd, if_neg hjne]
            exact hjn
          have hpre' : ∀ k, n + 1 ≤ k → k < j →
              (bufFind k (bufErase n b)).isSome := by
            intro k hk1 hk2
            rw [bufFind_erase k n b hnd, if_neg (by omega)]
            exact hpre k (by omega) hk2
          obtain ⟨b2, hb2, hb2nd, hb2f⟩ := ihB j hj1' hj2 hjn' hpre'
          refine ⟨b2, ?_, hb2nd, ?_⟩
          · rw [hstep, ← hcat1, hb2]
          · intro k
            rw [hb2f k, bufFind_erase k n b hnd]
            by_cases hk1 : n + 1 ≤ k ∧ k < j
            · rw [if_pos hk1, if_pos (by omega)]
            · rw [if_neg hk1]
              by_cases hk2 : k = n
              · rw [if_pos hk2, if_pos (by omega)]
              · rw [if_neg hk2, if_neg (by omega)]

/-- Weaker drain description used for the success-implies-complete
direction: if every buffered entry is the correct payload of its index,
the drain either takes the early return with the complete output, or
hands a consistent buffer back to the receive loop with the output
still a contiguous prefix. -/
theorem drainBuf_entries (total : Nat) (data : Nat → Bytes) :
    ∀ (fuel : Nat) (b : Buf) (n : Nat),
      b.length < fuel →
      (∀ p ∈ b, p.2 = data p.1) →
      n < total →
      (drainBuf total fuel b n (catRange data n) =
          .earlyDone (catRange data total)) ∨
      (∃ b2 n2, drainBuf total fuel b n (catRange data n) =
          .more b2 n2 (catRange data n2) ∧ n2 < total ∧
          ∀ p ∈ b2, p.2 = data p.1) := by
  intro fuel
  induction fuel with
  | zero => intro b n hlen; omega
  | succ m ih =>
    intro b n hlen hent hn
    cases hf : bufFind n b with
    | none =>
      right
      exact ⟨b, n, by simp only [drainBuf, hf], hn, hent⟩
    | some d =>
      have hd : d = data n := by
        have := hent (n, d) (bufFind_mem n d b hf)
        simpa using this
      subst hd
      by_cases hnt : n + 1 = total
      · left
        simp only [drainBuf, hf, if_pos hnt]
        have hcat : catRange data total = catRange data n ++ data n := by
          rw [← hnt]
          rfl
        rw [hcat]
      · have hlen2 : (bufErase n b).length < m := by
          have := bufErase_length n b (data n) hf
          omega
        have hent2 : ∀ p ∈ bufErase n b, p.2 = data p.1 := by
          intro p hp
          exact hent p (bufErase_entry n p.1 p.2 b (by simpa using hp))
        have hstep : drainBuf total (m + 1) b n (catRange data n) =
            drainBuf total m (bufErase n b) (n + 1)
              (catRange data n ++ data n) := by
          simp only [drainBuf, hf, if_neg hnt]
        have hcat1 : catRange data (n + 1) = catRange data n ++ data n := rfl
        rcases ih (bufErase n b) (n + 1) hlen2 hent2 (by omega) with hA | hB
        · left
          rw [hstep, ← hcat1]
          exact hA
        · right
          obtain ⟨b2, n2, hb2, hn2, hent3⟩ := hB
          exact ⟨b2, n2, by rw [hstep, ← hcat1]; exact hb2, hn2, hent3⟩

/-- Main invariant argument for the receive loop: if the indices still
to arrive are exactly `rem` (which contains the cursor, is
duplicate-free, and lies in `[next, total)`), and the buffer holds
exactly the already-arrived indices above the cursor, then processing
`rem` ends in the early return with the complete output — whatever
items may follow in the input afterwards. -/
theorem oowGo_perm (total : Nat) (data : Nat → Bytes) :
    ∀ (rem : List Nat) (tail : List DownloadedChunk) (buffer : Buf) (next : Nat),
      next < total →
      next ∈ rem →
      rem.Nodup →
      (∀ i ∈ rem, next ≤ i ∧ i < total) →
      (∀ k v, bufFind k buffer = some v →
        v = data k ∧ next < k ∧ k < total ∧ k ∉ rem) →
      (∀ k, next < k → k < total → k ∉ rem → (bufFind k buffer).isSome) →
      (buffer.map Prod.fst).Nodup →
      oowGo total (rem.map (mkChunk data) ++ tail) buffer next
        (catRange data next) = (catRange data total, true) := by
  intro rem
  induction rem with
  | nil => intro tail buffer next _ h2; simp at h2
  | cons i rem' ih =>
    intro tail buffer next h1 h2 h3 h4 h5 h6 h7
    have hi_mem : i ∈ i :: rem' := List.mem_cons_self _ _
    have hi_range := h4 i hi_mem
    have hnd' : rem'.Nodup := (List.nodup_cons.mp h3).2
    have hi_not : i ∉ rem' := (List.nodup_cons.mp h3).1
    set b1 := bufInsert i (data i) buffer with hb1def
    have hb1nd : (b1.map Prod.fst).Nodup := bufInsert_keys_nodup _ _ _ h7
    have hb1find : ∀ k, bufFind k b1 =
        if k = i then some (data i) else bufFind k buffer :=
      fun k => bufFind_insert k i (data i) buffer
    have hgo : oowGo total ((i :: rem').map (mkChunk data) ++ tail) buffer next
        (catRange data next) =
        match drainBuf total (b1.length + 1) b1 next (catRange data next) with
        | .earlyDone o => (o, true)
        | .more b2 n2 o2 =>
            oowGo total (rem'.map (mkChunk data) ++ tail) b2 n2 o2 := by
      simp only [List.map_cons, List.cons_append, oowGo, mkChunk, hb1def]
      rfl
    have hW1 : ∀ k v, bufFind k b1 = some v →
        v = data k ∧ next ≤ k ∧ k < total := by
      intro k v hkv
      rw [hb1find k] at hkv
      by_cases hk : k = i
      · rw [if_pos hk] at hkv
        obtain rfl := Option.some.inj hkv
        subst hk
        exact ⟨rfl, hi_range.1, hi_range.2⟩
      · rw [if_neg hk] at hkv
        obtain ⟨ha, hb, hc, _⟩ := h5 k v hkv
        exact ⟨ha, by omega, hc⟩
    obtain ⟨dA, dB⟩ := drainBuf_spec total data (b1.length + 1) b1 next
      (by omega) hb1nd hW1 h1
    by_cases hin : i = next
    · subst hin
      by_cases hrem : rem' = []
      · have hall : ∀ k, i ≤ k → k < total → (bufFind k b1).isSome := by
          intro k hk1 hk2
          rw [hb1find k]
          by_cases hk : k = i
          · rw [if_pos hk]; rfl
          · rw [if_neg hk]
            refine h6 k (by omega) hk2 ?_
            rw [hrem]
            simpa using hk
        rw [hgo, dA hall]
      · obtain ⟨j, hj_mem, hj_min⟩ := exists_list_min rem' hrem
        have hj_range := h4 j (List.mem_cons_of_mem _ hj_mem)
        have hj_ne : j ≠ i := fun he => hi_not (he ▸ hj_mem)
        have hj_gt : i < j := by
          have := hj_range.1
          omega
        have hj_none : bufFind j b1 = none := by
          rw [hb1find j, if_neg hj_ne]
          cases hf : bufFind j buffer with
          | none => rfl
          | some v =>
            obtain ⟨_, _, _, hnot⟩ := h5 j v hf
            exact absurd (List.mem_cons_of_mem _ hj_mem) hnot
        have hpre : ∀ k, i ≤ k → k < j → (bufFind k b1).isSome := by
          intro k hk1 hk2
          rw [hb1find k]
          by_cases hk : k = i
          · rw [if_pos hk]; rfl
          · rw [if_neg hk]
            have hknot : k ∉ rem' := fun hmem => by
              have := hj_min k hmem
              omega
            exact h6 k (by omega) (by omega)
              (by simp only [List.mem_cons]; push_neg; exact ⟨hk, hknot⟩)
        obtain ⟨b2, hdrain, hb2nd, hb2f⟩ :=
          dB j (by omega) hj_range.2 hj_none hpre
        rw [hgo, hdrain]
        show oowGo total (rem'.map (mkChunk data) ++ tail) b2 j
          (catRange data j) = (catRange data total, true)
        apply ih tail b2 j hj_range.2 hj_mem hnd'
        · intro k hk
          exact ⟨hj_min k hk, (h4 k (List.mem_cons_of_mem _ hk)).2⟩
        · intro k v hkv
          rw [hb2f k] at hkv
          by_cases hk1 : i ≤ k ∧ k < j
          · rw [if_pos hk1] at hkv; simp at hkv
          · rw [if_neg hk1] at hkv
            rw [hb1find k] at hkv
            by_cases hk : k = i
            · rw [if_pos hk] at hkv
              omega
            · rw [if_neg hk] at hkv
              obtain ⟨ha, hb, hc, hd⟩ := h5 k v hkv
              have hkj : j < k := by
                rcases Nat.lt_or_ge k j with hlt | hge
                · omega
                · rcases Nat.eq_or_lt_of_le hge with he | hlt
                  · exfalso
                    rw [he, hb1find k, if_neg hk, hkv] at hj_none
                    simp at hj_none
                  · exact hlt
              exact ⟨ha, hkj, hc, fun hmem => hd (List.mem_cons_of_mem _ hmem)⟩
        · intro k hk1 hk2 hknot
          rw [hb2f k, if_neg (by omega), hb1find k, if_neg (by omega)]
          apply h6 k (by omega) hk2
          simp only [List.mem_cons]
          push_neg
          exact ⟨by omega, hknot⟩
        · exact hb2nd
    · have hnext_none : bufFind next b1 = none := by
        rw [hb1find next, if_neg (fun he => hin he.symm)]
        cases hf : bufFind next buffer with
        | none => rfl
        | some v =>
          obtain ⟨_, hlt, _, _⟩ := h5 next v hf
          omega
      obtain ⟨b2, hdrain, hb2nd, hb2f⟩ := dB next (Nat.le_refl next) h1 hnext_none
        (by intro k hk1 hk2; omega)
      have hb2eq : ∀ k, bufFind k b2 = bufFind k b1 := by
        intro k
        rw [hb2f k, if_neg (by omega)]
      rw [hgo, hdrain]
      show oowGo total (rem'.map (mkChunk data) ++ tail) b2 next
        (catRange data next) = (catRange data total, true)
      apply ih tail b2 next h1 (by
        rcases List.mem_cons.mp h2 with he | he
        · exact absurd he.symm hin
        · exact he) hnd'
      · intro k hk
        exact h4 k (List.mem_cons_of_mem _ hk)
      · intro k v hkv
        rw [hb2eq k, hb1find k] at hkv
        by_cases hk : k = i
        · rw [if_pos hk] at hkv
          obtain rfl := Option.some.inj hkv
          subst hk
          refine ⟨rfl, by omega, hi_range.2, hi_not⟩
        · rw [if_neg hk] at hkv
          obtain ⟨ha, hb, hc, hd⟩ := h5 k v hkv
          exact ⟨ha, hb, hc, fun hmem => hd (List.mem_cons_of_mem _ hmem)⟩
      · intro k hk1 hk2 hknot
        rw [hb2eq k, hb1find k]
        by_cases hk : k = i
        · rw [if_pos hk]; rfl
        · rw [if_neg hk]
          apply h6 k hk1 hk2
          simp only [List.mem_cons]
          push_neg
          exact ⟨hk, hknot⟩
      · exact hb2nd

/-- The receive loop keeps the written output a contiguous prefix of
the object whenever every arriving chunk carries the payload belonging
to its index; the early return is taken exactly when the prefix is the
whole object. -/
theorem oowGo_entries (total : Nat) (data : Nat → Bytes) :
    ∀ (arr : List DownloadedChunk) (buffer : Buf) (next : Nat),
      (∀ c ∈ arr, c.data = data c.index) →
      (∀ p ∈ buffer, p.2 = data p.1) →
      next < total →
      ∃ n, n ≤ total ∧
        (oowGo total arr buffer next (catRange data next)).1 = catRange data n ∧
        ((oowGo total arr buffer next (catRange data next)).2 = true ↔
          n = total) := by
  intro arr
  induction arr with
  | nil =>
    intro buffer next _ _ hn
    refine ⟨next, by omega, rfl, ?_⟩
    simp only [oowGo]
    constructor
    · intro h; simp at h
    · intro h; omega
  | cons c rest ih =>
    intro buffer next harr hbuf hn
    have hent1 : ∀ p ∈ bufInsert c.index c.data buffer, p.2 = data p.1 := by
      intro p hp
      obtain ⟨pk, pv⟩ := p
      rcases bufInsert_entry c.index pk c.data pv buffer hp with h | h
      · exact hbuf (pk, pv) h
      · obtain ⟨h1, h2⟩ := h
        have := harr c (List.mem_cons_self _ _)
        simp only at h1 h2 ⊢
        rw [h2, this, h1]
    have hgo : oowGo total (c :: rest) buffer next (catRange data next) =
        match drainBuf total ((bufInsert c.index c.data buffer).length + 1)
            (bufInsert c.index c.data buffer) next (catRange data next) with
        | .earlyDone o => (o, true)
        | .more b2 n2 o2 => oowGo total rest b2 n2 o2 := by
      simp only [oowGo]
    rcases drainBuf_entries total data
        ((bufInsert c.index c.data buffer).length + 1)
        (bufInsert c.index c.data buffer) next (by omega) hent1 hn with hA | hB
    · refine ⟨total, Nat.le_refl total, ?_, ?_⟩
      · rw [hgo, hA]
      · rw [hgo, hA]
        simp
    · obtain ⟨b2, n2, hb2, hn2, hent2⟩ := hB
      have harr' : ∀ d ∈ rest, d.data = data d.index :=
        fun d hd => harr d (List.mem_cons_of_mem _ hd)
      obtain ⟨n, hna, hnb, hnc⟩ := ih b2 n2 harr' hent2 hn2
      refine ⟨n, hna, ?_, ?_⟩
      · rw [hgo, hb2]
        exact hnb
      · rw [hgo, hb2]
        exact hnc

/-- Feeding the writer every index of `[0, total)` exactly once (in any
order) makes it take the early return with the full concatenation,
regardless of any further queued items. -/
theorem ordered_output_writer_complete (total : Nat) (data : Nat → Bytes)
    (perm : List Nat) (extra : List DownloadedChunk)
    (h1 : 1 ≤ total) (h2 : perm.Perm (List.range total)) :
    ordered_output_writer total (perm.map (mkChunk data) ++ extra) =
      (catRange data total, true) := by
  show oowGo total (perm.map (mkChunk data) ++ extra) [] 0 (catRange data 0) =
    (catRange data total, true)
  apply oowGo_perm total data perm extra [] 0 h1
  · exact (h2.mem_iff).mpr (List.mem_range.mpr h1)
  · exact (h2.nodup_iff).mpr (List.nodup_range total)
  · intro i hi
    exact ⟨Nat.zero_le i, List.mem_range.mp ((h2.mem_iff).mp hi)⟩
  · intro k v hkv
    simp [bufFind] at hkv
  · intro k hk1 hk2 hknot
    exact absurd ((h2.mem_iff).mpr (List.mem_range.mpr hk2)) hknot
  · simp

/-- Claim C3: for `total_chunks ≥ 1` and any permutation of the arrival
order of the downloaded chunks with indices `{0 .. total_chunks-1}`,
the byte sequence `ordered_output_writer` writes to the sink is the
concatenation of the chunks' data in index order — identical to the
bytes written under strictly in-order arrival. -/
theorem ordered_output_writer_reorder_invariant (total : Nat)
    (data : Nat → Bytes) (perm : List Nat)
    (h1 : 1 ≤ total) (h2 : perm.Perm (List.range total)) :
    (ordered_output_writer total (perm.map (mkChunk data))).1 =
      catRange data total ∧
    (ordered_output_writer total (perm.map (mkChunk data))).1 =
      (ordered_output_writer total
        ((List.range total).map (mkChunk data))).1 := by
  have ha := ordered_output_writer_complete total data perm [] h1 h2
  have hb := ordered_output_writer_complete total data (List.range total) []
    h1 (List.Perm.refl _)
  rw [List.append_nil] at ha hb
  rw [ha, hb]
  exact ⟨rfl, rfl⟩

/-- Witness for C3: chunks 0 and 1 arriving in reversed order. -/
theorem ordered_output_writer_reorder_invariant_witness :
    (ordered_output_writer 2 ([1, 0].map (mkChunk (fun i => [i])))).1 =
      catRange (fun i => [i]) 2 ∧
    (ordered_output_writer 2 ([1, 0].map (mkChunk (fun i => [i])))).1 =
      (ordered_output_writer 2
        ((List.range 2).map (mkChunk (fun i => [i])))).1 :=
  ordered_output_writer_reorder_invariant 2 (fun i => [i]) [1, 0]
    (by decide) (by decide)

/-- Counterexample to claim C4 as stated: a run of
`ordered_output_writer` with `total_chunks = 2` whose input queue
closes after delivering only chunk 0 still terminates successfully
(the Rust function returns `Ok(writer)` on the queue-closed path), yet
it has not written all 2 chunks: the bytes written are `[7]`, not the
full concatenation `[7] ++ [7]` of chunks 0 and 1 under the payload
assignment `data = fun i => [7]`. -/
theorem ordered_output_writer_early_close_counterexample :
    ordered_output_writer 2 [⟨0, [7]⟩] = ([7], false) ∧
    (ordered_output_writer 2 [⟨0, [7]⟩]).1 ≠ catRange (fun _ => [7]) 2 := by
  constructor
  · rfl
  · decide

/-- Claim C4 amended: whenever every arriving chunk carries the payload
of its index, a terminating run of `ordered_output_writer` has written
exactly the chunks of a contiguous prefix `0 .. n-1` in index order,
with `n = total_chunks` precisely when the writer finished through the
early (all-chunks-written) return; a run whose queue simply closed
early also returns success, with `n < total_chunks`. -/
theorem ordered_output_writer_success_prefix (total : Nat)
    (data : Nat → Bytes) (arr : List DownloadedChunk)
    (h1 : 1 ≤ total) (h2 : ∀ c ∈ arr, c.data = data c.index) :
    ∃ n, n ≤ total ∧
      (ordered_output_writer total arr).1 = catRange data n ∧
      ((ordered_output_writer total arr).2 = true ↔ n = total) :=
  oowGo_entries total data arr [] 0 h2 (by simp) h1

/-- Witness for the amended C4 at a complete single-chunk run. -/
theorem ordered_output_writer_success_prefix_witness :
    ∃ n, n ≤ 1 ∧
      (ordered_output_writer 1 [⟨0, [5]⟩]).1 = catRange (fun _ => [5]) n ∧
      ((ordered_output_writer 1 [⟨0, [5]⟩]).2 = true ↔ n = 1) :=
  ordered_output_writer_success_prefix 1 (fun _ => [5]) [⟨0, [5]⟩]
    (by decide)
    (by
      intro c hc
      simp only [List.mem_singleton] at hc
      subst hc
      rfl)

/-- Claim C5: once all chunks `0 .. total_chunks-1` have arrived, the
writer flushes and returns successfully at once — through the early
return (`true`), without waiting for the queue to close or drain, and
ignoring any further queued items `extra`. -/
theorem ordered_output_writer_finishes_early (total : Nat)
    (data : Nat → Bytes) (perm : List Nat) (extra : List DownloadedChunk)
    (h1 : 1 ≤ total) (h2 : perm.Perm (List.range total)) :
    ordered_output_writer total (perm.map (mkChunk data) ++ extra) =
      (catRange data total, true) :=
  ordered_output_writer_complete total data perm extra h1 h2

/-- Witness for C5: chunk 0 completes the object while another item is
still queued behind it. -/
theorem ordered_output_writer_finishes_early_witness :
    ordered_output_writer 1 ([0].map (mkChunk (fun i => [i])) ++ [⟨5, [9]⟩]) =
      (catRange (fun i => [i]) 1, true) :=
  ordered_output_writer_finishes_early 1 (fun i => [i]) [0] [⟨5, [9]⟩]
    (by decide) (by decide)

/-! ## Stage 2: the per-chunk retried fetch (src/downloader.rs, lines 24-59)

`download_worker` fetches each chunk through backon's retry combinator:
`client.get_range(start, end)` wrapped by
`ExponentialBuilder::default().with_max_times(3).with_min_delay(100ms)
.with_max_delay(5s)`.  backon's `with_max_times(n)` bounds the number
of RETRIES performed after the initial attempt: the backoff iterator
yields at most `n` delays, and the retry future runs the operation
once, then once more per yielded delay, surfacing the error of the
last attempt when the iterator is exhausted.  The operation therefore
runs at most `n + 1` times.  Backoff sleeps do not affect the call
count and are elided.  The fetch oracle takes the attempt number, so
different attempts may yield different results. -/

/-- backon's retry loop: `remaining` is the number of retries the
backoff iterator will still yield, `attempt` the number of calls
already made.  Returns the total number of calls together with the
final result. -/
def retryGo {ε α : Type} (op : Nat → Except ε α) :
    Nat → Nat → Nat × Except ε α
  | 0, attempt =>
    match op attempt with
    | .ok d => (attempt + 1, .ok d)
    | .error e => (attempt + 1, .error e)
  | r + 1, attempt =>
    match op attempt with
    | .ok d => (attempt + 1, .ok d)
    | .error _ => retryGo op r (attempt + 1)

/-- backon's `Retryable::retry` with `with_max_times(maxTimes)`. -/
def retryBackon {ε α : Type} (maxTimes : Nat) (op : Nat → Except ε α) :
    Nat × Except ε α :=
  retryGo op maxTimes 0

/-- The per-chunk fetch of `download_worker`: `get_range` over the
chunk's inclusive range, retried with `with_max_times(3)`. -/
def download_worker_fetch {ε : Type}
    (get_range : Nat → Nat → Nat → Except ε Bytes) (c : Chunk) :
    Nat × Except ε Bytes :=
  retryBackon 3 (fun attempt => get_range attempt c.start c.end_)

theorem retryGo_spec {ε α : Type} (op : Nat → Except ε α) :
    ∀ (r attempt : Nat),
      (retryGo op r attempt).1 ≤ attempt + r + 1 ∧
      (∀ e, (retryGo op r attempt).2 = .error e →
        (retryGo op r attempt).1 = attempt + r + 1 ∧
        op (attempt + r) = .error e) := by
  intro r
  induction r with
  | zero =>
    intro attempt
    constructor
    · cases h : op attempt <;> simp [retryGo, h]
    · intro e he
      cases h : op attempt with
      | ok d =>
        simp only [retryGo, h] at he
        simp at he
      | error e2 =>
        simp only [retryGo, h] at he ⊢
        obtain rfl := Except.error.inj he
        simpa using h
  | succ r ih =>
    intro attempt
    cases h : op attempt with
    | ok d =>
      constructor
      · simp only [retryGo, h]
        omega
      · intro e he
        simp only [retryGo, h] at he
        simp at he
    | error e2 =>
      have hred : retryGo op (r + 1) attempt = retryGo op r (attempt + 1) := by
        simp only [retryGo, h]
      obtain ⟨ih1, ih2⟩ := ih (attempt + 1)
      constructor
      · rw [hred]
        omega
      · intro e he
        rw [hred] at he ⊢
        obtain ⟨hc, hop⟩ := ih2 e he
        constructor
        · omega
        · have harith : attempt + 1 + r = attempt + (r + 1) := by omega
          rw [harith] at hop
          exact hop

/-- Counterexample to claim C2 as stated: when every attempt fails, the
worker's retried fetch calls `get_range` 4 times, not at most 3 —
backon's `with_max_times(3)` bounds the retries that follow the
initial attempt. -/
theorem download_worker_fetch_counterexample :
    ¬ ((download_worker_fetch
        (fun _ _ _ => (Except.error 0 : Except Nat Bytes)) ⟨0, 0, 9⟩).1 ≤ 3) := by
  decide

/-- Claim C2 amended: for every chunk handed to a Stage-2 worker, the
worker invokes `get_range` for that chunk at most 4 times in total
(the initial attempt plus the configured maximum of 3 retries) before
failing; when the result is an error, all 4 attempts were made and the
error returned is the last underlying error (that of the fourth
attempt). -/
theorem download_worker_fetch_retries {ε : Type}
    (get_range : Nat → Nat → Nat → Except ε Bytes) (c : Chunk) :
    (download_worker_fetch get_range c).1 ≤ 4 ∧
    (∀ e, (download_worker_fetch get_range c).2 = .error e →
      (download_worker_fetch get_range c).1 = 4 ∧
      get_range 3 c.start c.end_ = .error e) := by
  have h := retryGo_spec (fun attempt => get_range attempt c.start c.end_) 3 0
  exact ⟨h.1, h.2⟩

/-- Witness for the amended C2: an always-failing oracle makes exactly
4 calls and the surfaced error is that of the last attempt. -/
theorem download_worker_fetch_retries_witness :
    (download_worker_fetch
        (fun _ _ _ => (Except.error 7 : Except Nat Bytes)) ⟨0, 0, 9⟩).1 = 4 ∧
    (fun _ _ _ => (Except.error 7 : Except Nat Bytes)) 3 0 9 = .error 7 :=
  (download_worker_fetch_retries
    (fun _ _ _ => (Except.error 7 : Except Nat Bytes)) ⟨0, 0, 9⟩).2 7 (by rfl)

/-! ## Orchestrator strategy (src/downloader.rs, lines 97-213)

`download` performs HEAD once, then picks the chunked path when
`supports_range` holds and the single-stream path otherwise.  The
models record the sequence of network calls.  The chunked pipeline is
linearized: Stage 1 submits the planned chunks in order, each chunk is
fetched exactly once through the retried fetch, and Stage 3 receives
the completed chunks in an arrival order produced by the schedule
parameter `sched`, which abstracts the nondeterministic completion
order of the worker pool. -/

/-- Error kinds of the embedded operations.  `panicArith` stands for
the checked-build arithmetic panic inside `create_chunks`. -/
inductive Err where
  | panicArith
  | httpStatus
  | missingContentLength
  | fetch (code : Nat)
deriving DecidableEq, Repr

/-- `ObjectMetadata` from `src/s3_client.rs`. -/
structure ObjectMetadata where
  content_length : Nat
  supports_range : Bool
deriving DecidableEq, Repr

/-- One network call made through the `DownloadClient` capability. -/
inductive Call where
  | head
  | getRange (start end_ : Nat)
  | getFull
deriving DecidableEq, Repr

/-- Deterministic model of the `DownloadClient` trait
(src/s3_client.rs, lines 12-17); `get_range` takes the attempt number
first so retried attempts may differ. -/
structure DownloadClient where
  head : Except Err ObjectMetadata
  get_range : Nat → Nat → Nat → Except Err Bytes
  get_full : Except Err Bytes

/-- Stage 1 + Stage 2 combined, linearized: fetch every planned chunk
once through the worker's retried fetch, recording one `getRange` call
per attempt; the first chunk to exhaust its retries fails the
pipeline. -/
def fetch_chunksGo (client : DownloadClient) :
    List Chunk → List Call × Except Err (List DownloadedChunk)
  | [] => ([], .ok [])
  | c :: rest =>
    match download_worker_fetch client.get_range c with
    | (n, .error e) => (List.replicate n (Call.getRange c.start c.end_), .error e)
    | (n, .ok d) =>
      match fetch_chunksGo client rest with
      | (cs2, .error e) =>
          (List.replicate n (Call.getRange c.start c.end_) ++ cs2, .error e)
      | (cs2, .ok ds) =>
          (List.replicate n (Call.getRange c.start c.end_) ++ cs2,
            .ok (⟨c.index, d⟩ :: ds))

/-- `download_chunked` from `src/downloader.rs` (lines 97-158): empty
objects return the writer untouched before any pipeline work; otherwise
plan chunks, run the linearized pipeline, and write the reassembled
bytes. -/
def download_chunked (client : DownloadClient) (chunk_size : Nat)
    (content_length : Nat)
    (sched : List DownloadedChunk → List DownloadedChunk) (writer : Bytes) :
    Except Err Bytes × List Call :=
  if content_length = 0 then (.ok writer, [])
  else
    match create_chunks content_length chunk_size with
    | none => (.error .panicArith, [])
    | some chunks =>
      match fetch_chunksGo client chunks with
      | (calls, .error e) => (.error e, calls)
      | (calls, .ok ds) =>
        (.ok (writer ++ (ordered_output_writer chunks.length (sched ds)).1),
          calls)

/-- `download_single_stream` from `src/downloader.rs` (lines 161-186):
empty objects return the writer untouched; otherwise one whole-object
GET whose bytes are written directly. -/
def download_single_stream (client : DownloadClient) (content_length : Nat)
    (writer : Bytes) : Except Err Bytes × List Call :=
  if content_length = 0 then (.ok writer, [])
  else
    match client.get_full with
    | .error e => (.error e, [.getFull])
    | .ok d => (.ok (writer ++ d), [.getFull])

/-- `download` from `src/downloader.rs` (lines 189-205): HEAD, then
strategy choice on `supports_range`. -/
def download (client : DownloadClient) (chunk_size : Nat)
    (sched : List DownloadedChunk → List DownloadedChunk) (writer : Bytes) :
    Except Err Bytes × List Call :=
  match client.head with
  | .error e => (.error e, [.head])
  | .ok meta =>
    if meta.supports_range then
      ((download_chunked client chunk_size meta.content_length sched writer).1,
        .head ::
          (download_chunked client chunk_size meta.content_length sched
            writer).2)
    else
      ((download_single_stream client meta.content_length writer).1,
        .head :: (download_single_stream client meta.content_length writer).2)

/-- Claim C6: for `content_length = 0`, both `download_chunked` and
`download_single_stream` return the writer unchanged and issue no
fetch call — no `get_range`, no `get_full`, no pipeline stage. -/
theorem download_empty_object (client : DownloadClient) (chunk_size : Nat)
    (sched : List DownloadedChunk → List DownloadedChunk) (writer : Bytes) :
    download_chunked client chunk_size 0 sched writer = (.ok writer, []) ∧
    download_single_stream client 0 writer = (.ok writer, []) :=
  ⟨rfl, rfl⟩

/-- Claim C7: when HEAD reports `supports_range = false` and a positive
length, `download` takes the single-stream path: after HEAD it makes
exactly one `get_full` call and no `get_range` call (so no chunking or
worker pool runs), and when `get_full` succeeds exactly its bytes are
appended to the writer. -/
theorem download_no_range_support (client : DownloadClient) (chunk_size : Nat)
    (sched : List DownloadedChunk → List DownloadedChunk) (writer : Bytes)
    (meta : ObjectMetadata)
    (hhead : client.head = .ok meta)
    (hsr : meta.supports_range = false)
    (hcl : 0 < meta.content_length) :
    (download client chunk_size sched writer).2 = [.head, .getFull] ∧
    (∀ s e, Call.getRange s e ∉ (download client chunk_size sched writer).2) ∧
    (∀ d, client.get_full = .ok d →
      (download client chunk_size sched writer).1 = .ok (writer ++ d)) := by
  have hne : ¬ meta.content_length = 0 := by omega
  simp only [download, hhead, hsr, Bool.false_eq_true, if_false,
    download_single_stream, if_neg hne]
  cases hf : client.get_full with
  | error e =>
    refine ⟨rfl, ?_, ?_⟩
    · intro s e2
      simp
    · intro d hd
      simp at hd
  | ok d0 =>
    refine ⟨rfl, ?_, ?_⟩
    · intro s e2
      simp
    · intro d hd
      obtain rfl := Except.ok.inj hd
      rfl

/-- Concrete client with a 5-byte object and no range support, used by
the C7 witness. -/
def clientNoRange : DownloadClient :=
  ⟨.ok ⟨5, false⟩, fun _ _ _ => .error (.fetch 0), .ok [1, 2, 3, 4, 5]⟩

/-- Witness for C7. -/
theorem download_no_range_support_witness :
    (download clientNoRange 4 id []).2 = [.head, .getFull] ∧
    (download clientNoRange 4 id []).1 = .ok ([] ++ [1, 2, 3, 4, 5]) := by
  have h := download_no_range_support clientNoRange 4 id [] ⟨5, false⟩
    rfl rfl (by decide)
  exact ⟨h.1, h.2.2 [1, 2, 3, 4, 5] rfl⟩

/-! ## The HTTP backend's HEAD (src/http_client.rs, lines 25-53) -/

/-- Shape of an HTTP HEAD response as `HttpClient::head` inspects it:
success status or not; the Content-Length header (`none` = absent,
`some none` = present but not parseable as an unsigned integer,
`some (some n)` = parses to `n`); the Accept-Ranges header value
(`none` = absent or not a string). -/
structure HeadResponse where
  statusSuccess : Bool
  contentLength : Option (Option Nat)
  acceptRanges : Option String

/-- `HttpClient::head`: error on a non-success status; error
(`Missing Content-Length header`) when the Content-Length chain
`get → to_str → parse` yields nothing; `supports_range` is the
Accept-Ranges value compared with `"bytes"`, defaulting to `false`
when absent. -/
def HttpClient.head (r : HeadResponse) : Except Err ObjectMetadata :=
  if !r.statusSuccess then .error .httpStatus
  else
    match r.contentLength.join with
    | none => .error .missingContentLength
    | some n =>
      .ok ⟨n, (r.acceptRanges.map (fun v => v == "bytes")).getD false⟩

/-- Claim C8: the HTTP backend's `head` returns an error whenever the
response carries no parseable Content-Length header, and any metadata
it returns has `supports_range = true` exactly when the Accept-Ranges
header value equals `"bytes"` — any other or absent value yields
`false`. -/
theorem HttpClient_head_spec (r : HeadResponse) :
    (r.contentLength.join = none → ∃ e, HttpClient.head r = .error e) ∧
    (∀ m, HttpClient.head r = .ok m →
      (m.supports_range = true ↔ r.acceptRanges = some "bytes")) := by
  constructor
  · intro hcl
    cases hs : r.statusSuccess with
    | false => exact ⟨.httpStatus, by simp [HttpClient.head, hs]⟩
    | true =>
      refine ⟨.missingContentLength, ?_⟩
      simp only [HttpClient.head, hs, Bool.not_true, Bool.false_eq_true,
        if_false, hcl]
  · intro m hm
    cases hs : r.statusSuccess with
    | false => simp [HttpClient.head, hs] at hm
    | true =>
      simp only [HttpClient.head, hs, Bool.not_true, Bool.false_eq_true,
        if_false] at hm
      cases hcl : r.contentLength.join with
      | none => rw [hcl] at hm; simp at hm
      | some n =>
        rw [hcl] at hm
        obtain rfl := Except.ok.inj hm
        cases har : r.acceptRanges with
        | none => simp
        | some s =>
          simp only [Option.map_some, Option.getD_some, Option.some.injEq]
          exact ⟨fun h => beq_iff_eq.mp h, fun h => beq_iff_eq.mpr h⟩

/-- Witness for C8: a success response with an unparseable
Content-Length errors out, and one advertising `Accept-Ranges: bytes`
yields `supports_range = true`. -/
theorem HttpClient_head_spec_witness :
    (∃ e, HttpClient.head ⟨true, some none, some "bytes"⟩ = .error e) ∧
    ((⟨7, true⟩ : ObjectMetadata).supports_range = true ↔
      (⟨true, some (some 7), some "bytes"⟩ : HeadResponse).acceptRanges =
        some "bytes") :=
  ⟨(HttpClient_head_spec ⟨true, some none, some "bytes"⟩).1 rfl,
   (HttpClient_head_spec ⟨true, some (some 7), some "bytes"⟩).2 ⟨7, true⟩
     (by rfl)⟩

/-! ## Concurrency structure of `download_chunked`
(src/downloader.rs, lines 97-158)

Small-step transition system over the two flume bounded channels and
the four kinds of tasks.  Channel semantics follow flume:

* `send` succeeds immediately with an error when every receiver handle
  has been dropped; otherwise it enqueues when the buffer is below
  capacity and suspends (no step) when the buffer is full;
* `recv` dequeues while the buffer is non-empty (even with no senders
  left), reports disconnection when the buffer is empty and every
  sender handle has been dropped, and suspends otherwise.

Handle ownership in `download_chunked`: the feeder task owns the one
`chunk_tx`; each worker owns a `chunk_rx` clone and an `output_tx`
clone; the writer task owns `output_rx`; the orchestrator keeps the
original `chunk_rx` (it is only cloned, never dropped before the
function returns) and the original `output_tx` (explicitly dropped
only after all workers have been joined, line 149).  A task's handles
are dropped when it terminates; the orchestrator's handles are dropped
when the function returns. -/

/-- A flume bounded channel: queued items, capacity, and live handle
counts. -/
structure Chan (α : Type) where
  buf : List α
  cap : Nat
  senders : Nat
  receivers : Nat
deriving DecidableEq, Repr

/-- Stage-1 feeder task (`queue_chunks`). -/
inductive FeederPhase where
  | running (remaining : List Chunk)
  | done
  | failed
deriving DecidableEq, Repr

/-- A Stage-2 worker task (`download_worker`): `fetching c attempt`
means `attempt` calls have already failed and the next `get_range`
call is about to be made. -/
inductive WorkerPhase where
  | idle
  | fetching (c : Chunk) (attempt : Nat)
  | pushing (d : DownloadedChunk)
  | exitedOk
  | failedFetch
  | failedPush
deriving DecidableEq, Repr

/-- The Stage-3 writer task (`ordered_output_writer`). -/
inductive WriterPhase where
  | waiting
  | finished
deriving DecidableEq, Repr

/-- The orchestrator (`download_chunked` after spawning), which joins
stage 1, then each worker in order, then drops its `output_tx` and
joins the writer. -/
inductive OrchPhase where
  | awaitQueue
  | awaitWorker (i : Nat)
  | awaitOutput
  | returnedOk (out : Bytes)
  | returnedErr
deriving DecidableEq, Repr

/-- Global state of the pipeline. -/
structure PipelineState where
  chunkChan : Chan Chunk
  outChan : Chan DownloadedChunk
  feeder : FeederPhase
  workers : List WorkerPhase
  writerBuf : Buf
  writerNext : Nat
  writerOut : Bytes
  writer : WriterPhase
  orch : OrchPhase
deriving DecidableEq, Repr

/-- Which task takes the next step. -/
inductive TaskId where
  | feeder
  | worker (i : Nat)
  | writer
  | orch
deriving DecidableEq, Repr

/-- One step of the chosen task; `none` when that task is terminated or
suspended (blocked on a channel or a join). -/
def pipelineStep (gr : Nat → Nat → Nat → Except Err Bytes) (total : Nat)
    (s : PipelineState) : TaskId → Option PipelineState
  | .feeder =>
    match s.feeder with
    | .running [] =>
      some { s with
        feeder := .done,
        chunkChan := { s.chunkChan with senders := s.chunkChan.senders - 1 } }
    | .running (c :: rest) =>
      if s.chunkChan.receivers = 0 then
        some { s with
          feeder := .failed,
          chunkChan := { s.chunkChan with senders := s.chunkChan.senders - 1 } }
      else if s.chunkChan.buf.length < s.chunkChan.cap then
        some { s with
          feeder := .running rest,
          chunkChan := { s.chunkChan with buf := s.chunkChan.buf ++ [c] } }
      else none
    | _ => none
  | .worker i =>
    match s.workers.get? i with
    | none => none
    | some .idle =>
      match s.chunkChan.buf with
      | c :: bs =>
        some { s with
          chunkChan := { s.chunkChan with buf := bs },
          workers := s.workers.set i (.fetching c 0) }
      | [] =>
        if s.chunkChan.senders = 0 then
          some { s with
            workers := s.workers.set i .exitedOk,
            chunkChan :=
              { s.chunkChan with receivers := s.chunkChan.receivers - 1 },
            outChan := { s.outChan with senders := s.outChan.senders - 1 } }
        else none
    | some (.fetching c attempt) =>
      match gr attempt c.start c.end_ with
      | .ok d =>
        some { s with workers := s.workers.set i (.pushing ⟨c.index, d⟩) }
      | .error _ =>
        if attempt < 3 then
          some { s with workers := s.workers.set i (.fetching c (attempt + 1)) }
        else
          some { s with
            workers := s.workers.set i .failedFetch,
            chunkChan :=
              { s.chunkChan with receivers := s.chunkChan.receivers - 1 },
            outChan := { s.outChan with senders := s.outChan.senders - 1 } }
    | some (.pushing d) =>
      if s.outChan.receivers = 0 then
        some { s with
          workers := s.workers.set i .failedPush,
          chunkChan :=
            { s.chunkChan with receivers := s.chunkChan.receivers - 1 },
          outChan := { s.outChan with senders := s.outChan.senders - 1 } }
      else if s.outChan.buf.length < s.outChan.cap then
        some { s with
          outChan := { s.outChan with buf := s.outChan.buf ++ [d] },
          workers := s.workers.set i .idle }
      else none
    | some _ => none
  | .writer =>
    match s.writer with
    | .finished => none
    | .waiting =>
      match s.outChan.buf with
      | d :: bs =>
        match drainBuf total ((bufInsert d.index d.data s.writerBuf).length + 1)
            (bufInsert d.index d.data s.writerBuf) s.writerNext s.writerOut with
        | .earlyDone o =>
          some { s with
            outChan := { s.outChan with
              buf := bs,
              receivers := s.outChan.receivers - 1 },
            writerOut := o,
            writer := .finished }
        | .more b2 n2 o2 =>
          some { s with
            outChan := { s.outChan with buf := bs },
            writerBuf := b2,
            writerNext := n2,
            writerOut := o2 }
      | [] =>
        if s.outChan.senders = 0 then
          some { s with
            writer := .finished,
            outChan := { s.outChan with receivers := s.outChan.receivers - 1 } }
        else none
  | .orch =>
    match s.orch with
    | .awaitQueue =>
      match s.feeder with
      | .done => some { s with orch := .awaitWorker 0 }
      | .failed =>
        some { s with
          orch := .returnedErr,
          chunkChan :=
            { s.chunkChan with receivers := s.chunkChan.receivers - 1 },
          outChan := { s.outChan with senders := s.outChan.senders - 1 } }
      | .running _ => none
    | .awaitWorker i =>
      match s.workers.get? i with
      | none => none
      | some .exitedOk =>
        if i + 1 = s.workers.length then
          some { s with
            orch := .awaitOutput,
            outChan := { s.outChan with senders := s.outChan.senders - 1 } }
        else some { s with orch := .awaitWorker (i + 1) }
      | some .failedFetch =>
        some { s with
          orch := .returnedErr,
          chunkChan :=
            { s.chunkChan with receivers := s.chunkChan.receivers - 1 },
          outChan := { s.outChan with senders := s.outChan.senders - 1 } }
      | some .failedPush =>
        some { s with
          orch := .returnedErr,
          chunkChan :=
            { s.chunkChan with receivers := s.chunkChan.receivers - 1 },
          outChan := { s.outChan with senders := s.outChan.senders - 1 } }
      | some _ => none
    | .awaitOutput =>
      match s.writer with
      | .finished => some { s with orch := .returnedOk s.writerOut }
      | .waiting => none
    | _ => none

/-- Initial pipeline state of `download_chunked` after spawning all
tasks: chunk channel of capacity `concurrency` (1 sender: the feeder;
`concurrency + 1` receivers: the worker clones plus the orchestrator's
original), output channel of capacity `concurrency * 2`
(`concurrency + 1` senders: the worker clones plus the orchestrator's
original; 1 receiver: the writer). -/
def initPipeline (chunks : List Chunk) (concurrency : Nat) : PipelineState :=
  { chunkChan := ⟨[], concurrency, 1, concurrency + 1⟩,
    outChan := ⟨[], concurrency * 2, concurrency + 1, 1⟩,
    feeder := .running chunks,
    workers := List.replicate concurrency .idle,
    writerBuf := [], writerNext := 0, writerOut := [],
    writer := .waiting,
    orch := .awaitQueue }

/-- Run a schedule of task steps; `none` if a scheduled task cannot
step. -/
def pipelineRun (gr : Nat → Nat → Nat → Except Err Bytes) (total : Nat) :
    PipelineState → List TaskId → Option PipelineState
  | s, [] => some s
  | s, t :: ts =>
    match pipelineStep gr total s t with
    | none => none
    | some s2 => pipelineRun gr total s2 ts

/-- Range oracle on which every attempt fails. -/
def grFail : Nat → Nat → Nat → Except Err Bytes :=
  fun _ _ _ => .error (.fetch 0)

/-- Schedule reaching the deadlock: the feeder fills the
single-slot chunk queue twice, the lone worker takes chunk 0 and
exhausts its four fetch attempts, then dies. -/
def deadlockTrace : List TaskId :=
  [.feeder, .worker 0, .feeder, .worker 0, .worker 0, .worker 0, .worker 0]

/-- The state reached by `deadlockTrace`: the feeder still holds chunk
2 and is suspended on a full chunk queue whose only remaining receiver
is the orchestrator's never-polled clone; the only worker is dead; the
writer waits on an output queue that will never receive; the
orchestrator is joining the feeder. -/
def deadState : PipelineState :=
  { chunkChan := ⟨[⟨1, 1, 1⟩], 1, 1, 1⟩,
    outChan := ⟨[], 2, 1, 1⟩,
    feeder := .running [⟨2, 2, 2⟩],
    workers := [.failedFetch],
    writerBuf := [], writerNext := 0, writerOut := [],
    writer := .waiting,
    orch := .awaitQueue }

/-- Claim C9 is violated by the code: with `concurrency = 1`,
`chunk_size = 1`, `content_length = 3` (three planned chunks) and every
`get_range` attempt failing, the pipeline reaches a state in which no
task can ever step again while `download_chunked` has not returned.
The worker's exhausted-retry failure leaves the Stage-1 feeder blocked
forever on the full bounded chunk queue — the queue never disconnects
because the orchestrator keeps its original `chunk_rx` clone alive
while it is itself blocked joining the feeder — so `download_chunked`
hangs instead of returning the worker's error. -/
theorem download_chunked_deadlock :
    create_chunks 3 1 = some [⟨0, 0, 0⟩, ⟨1, 1, 1⟩, ⟨2, 2, 2⟩] ∧
    pipelineRun grFail 3
      (initPipeline [⟨0, 0, 0⟩, ⟨1, 1, 1⟩, ⟨2, 2, 2⟩] 1) deadlockTrace =
        some deadState ∧
    deadState.orch = .awaitQueue ∧
    deadState.feeder = .running [⟨2, 2, 2⟩] ∧
    pipelineStep grFail 3 deadState .feeder = none ∧
    (∀ i, pipelineStep grFail 3 deadState (.worker i) = none) ∧
    pipelineStep grFail 3 deadState .writer = none ∧
    pipelineStep grFail 3 deadState .orch = none := by
  refine ⟨rfl, rfl, rfl, rfl, rfl, ?_, rfl, rfl⟩
  intro i
  match i with
  | 0 => rfl
  | n + 1 => rfl

end S3fcp
